import Mathlib

/-!
Verification development for the boxedin agent core
(src/core/tools.mjs, src/core/sandbox.mjs, src/core/agent.mjs, src/core/memory.mjs).

The JavaScript source is shallowly embedded as executable Lean definitions:
pure functions become Lean functions, the on-disk tool catalog becomes an
association list keyed by directory name, child-process execution becomes a
fold over a trace of process events, and the per-call state of the agent run
chain (runs, runIndex, lastRun) becomes an explicit state record.
-/

set_option autoImplicit false

/-! ## JavaScript-style helpers -/

/-- `jsOrS o d` models the JavaScript expression `o || d` for string-valued
`o` that may be `undefined` (`none`) or an empty (falsy) string. -/
def jsOrS (o : Option String) (d : String) : String :=
  match o with
  | some s => if s = "" then d else s
  | none => d

/-- `jsOrOpt a b` models `a || b` where both operands are possibly-undefined
strings; the result keeps `none`/empty distinctions of the second operand. -/
def jsOrOpt (a b : Option String) : Option String :=
  match a with
  | some s => if s = "" then b else some s
  | none => b

/-! ## Path model (tools.mjs `writeToolCode`)

Absolute paths are modelled as lists of path segments.  `normSegs` performs
the normalization `path.join` applies to the concatenated segments of an
absolute path: empty and `.` segments disappear, and a `..` segment removes
the preceding segment (at the root it is dropped, as Node does for absolute
paths).  `writeToolCodeTarget` computes the absolute path that
`writeToolCode` passes to `fs.writeFile` for one `(relPath, content)` entry:
`path.join(path.join(sandboxDir, 'tools', toolId), relPath)`.  The source
performs no validation of `relPath` whatsoever. -/

def normStep (acc : List String) (s : String) : List String :=
  if s = "" ∨ s = "." then acc
  else if s = ".." then acc.dropLast
  else acc ++ [s]

def normSegs (l : List String) : List String :=
  l.foldl normStep []

/-- Split a path string at `/` characters (the behaviour of
`String.splitOn "/"`, implemented over characters). -/
def splitSegsGo (cur : List Char) : List Char → List String
  | [] => [⟨cur.reverse⟩]
  | c :: cs =>
    if c = '/' then ⟨cur.reverse⟩ :: splitSegsGo [] cs
    else splitSegsGo (c :: cur) cs

def splitSegs (s : String) : List String :=
  splitSegsGo [] s.data

/-- Target path (as segments of an absolute path) of the `fs.writeFile` call
in `writeToolCode` for relative path `rel`, given the sandbox directory
`sandbox` (as segments) and the tool id. -/
def writeToolCodeTarget (sandbox : List String) (toolId rel : String) : List String :=
  normSegs (sandbox ++ ["tools", toolId] ++ splitSegs rel)

/-! ## Tool manifests and the on-disk catalog (tools.mjs) -/

inductive Lang where
  | python
  | node
deriving DecidableEq, Repr

/-- One element of a manifest `inputs` array (zod: `{name, type, required?}`). -/
structure InputField where
  name : String
  type : String
  required : Option Bool
deriving DecidableEq, Repr

/-- One element of a manifest `outputs` array (zod: `{name, type}`). -/
structure OutputField where
  name : String
  type : String
deriving DecidableEq, Repr

/-- A tool manifest that parses against the `ToolManifest` zod schema of
tools.mjs.  A value of this type is exactly a schema-valid manifest (with
the zod defaults for `inputs`, `outputs`, `usage` already applied, as
`ToolManifest.parse` yields). -/
structure Manifest where
  id : String
  name : String
  purpose : String
  language : Lang
  entry : String
  inputs : List InputField
  outputs : List OutputField
  usage : String
  createdAt : Nat
  updatedAt : Nat
deriving DecidableEq, Repr

/-- Content of one direct child directory of `<sandboxDir>/tools/`:
either its `manifest.json` is absent, or it does not parse against the
schema, or it parses to a `Manifest`. -/
inductive DirContent where
  | missing
  | invalid
  | valid (m : Manifest)
deriving DecidableEq, Repr

/-- The `tools/` directory: an association of directory names to contents.
Keys are the names `fs.readdir` would return, so they are plain non-empty
file names without path separators. -/
abbrev ToolsDir := List (String × DirContent)

/-- `saveTool` (tools.mjs): validates the manifest (here: `Manifest` values
are schema-valid by construction, and `ToolManifest.parse` is the identity
on them) and writes `manifest.json` into `tools/<id>/`, creating or
overwriting that directory entry.  Faithful for ids that are plain directory
names (non-empty, no path separators, cf. `path.join(sandboxDir, 'tools',
parsed.id)`). -/
def saveTool (fs : ToolsDir) (m : Manifest) : ToolsDir :=
  (m.id, DirContent.valid m) :: fs.filter (fun e => e.1 ≠ m.id)

/-- `d.startsWith "."`, implemented over characters. -/
def startsWithDot (s : String) : Bool :=
  match s.data with
  | c :: _ => c = '.'
  | [] => false

/-- `loadTools` (tools.mjs): enumerates the children of `tools/`, skips
names beginning with `.`, skips directories without a parsable
`manifest.json`, and keys the result by the *directory name* (the loop
variable `id` from `fs.readdir`), not by the manifest `id` field. -/
def loadTools (fs : ToolsDir) : List (String × Manifest) :=
  (fs.filter (fun e => !startsWithDot e.1)).filterMap
    (fun e => match e.2 with
      | DirContent.valid m => some (e.1, m)
      | _ => none)

/-! ## Tool materialization (agent.mjs, `for (const t of plan.createTools)`) -/

/-- A `ToolSpec` from a parsed plan, with every field possibly absent.
The `files` map is written via `writeToolCode` and does not affect the
persisted manifest, so it is not carried here. -/
structure ToolSpec where
  id : Option String := none
  name : Option String := none
  language : Option Lang := none
  entry : Option String := none
  purpose : Option String := none
  inputs : List InputField := []
  outputs : List OutputField := []
  usage : Option String := none
deriving DecidableEq, Repr

def isLowerAlnum (c : Char) : Bool :=
  (decide ('a' ≤ c) && decide (c ≤ 'z')) || (decide ('0' ≤ c) && decide (c ≤ '9'))

/-- `(t.name || 'tool').toLowerCase().replace(/[^a-z0-9]+/g, '-')`:
after lowercasing, every maximal run of characters outside `[a-z0-9]`
becomes a single `-`.  The `prevBad` flag records whether the previous
character was part of such a run. -/
def slugGo : Bool → List Char → List Char
  | _, [] => []
  | prevBad, c :: cs =>
    if isLowerAlnum c then c :: slugGo false cs
    else if prevBad then slugGo true cs
    else '-' :: slugGo true cs

def slugify (s : String) : String :=
  ⟨slugGo false (s.data.map Char.toLower)⟩

/-- The manifest passed to `saveTool` for one `ToolSpec`, with the defaults
applied exactly as in agent.mjs (`Date.now()` supplied as `now`):
`entry: t.entry || 'index.mjs'` regardless of the language. -/
def materializeManifest (t : ToolSpec) (now : Nat) : Manifest :=
  let toolId := jsOrS t.id (slugify (jsOrS t.name "tool") ++ "-" ++ toString now)
  { id := toolId
    name := jsOrS t.name toolId
    purpose := jsOrS t.purpose "N/A"
    language := t.language.getD Lang.node
    entry := jsOrS t.entry "index.mjs"
    inputs := t.inputs
    outputs := t.outputs
    usage := jsOrS t.usage ""
    createdAt := now
    updatedAt := now }

/-! ## Memory (memory.mjs) -/

/-- One conversation turn.  `addHistory` always sets `ts`; the synthetic
entry produced by `summarizeHistory` has no `ts` field, hence the option. -/
structure HistEntry where
  role : String
  content : String
  ts : Option Nat
deriving DecidableEq, Repr

/-- JavaScript `arr.slice(-n)` (last `n` elements; for `n = 0` it is
`arr.slice(0)`, the whole array). -/
def jsSliceLast (l : List HistEntry) (n : Nat) : List HistEntry :=
  if n = 0 then l else l.drop (l.length - n)

/-- `summarizeHistory` (memory.mjs): keep the history if it has at most
`maxTurns` entries; otherwise return one synthetic system entry followed by
the last `maxTurns` entries.  The embedding is a pure function of the
history list, mirroring that the source builds a fresh array and never
mutates `memory.history`. -/
def summarizeHistory (history : List HistEntry) (maxTurns : Nat) : List HistEntry :=
  if history.length ≤ maxTurns then history
  else
    let keep := jsSliceLast history maxTurns
    let omitted := history.length - keep.length
    { role := "system"
      content := "Summarized context: " ++ toString omitted ++ " earlier turns omitted."
      ts := none } :: keep

/-! ## Sandbox child-process model (sandbox.mjs `_spawnWithLogs`)

`_spawnWithLogs` reacts to the events Node delivers for the spawned child:
`data` on stdout/stderr, the timeout timer firing (which issues
`p.kill('SIGKILL')` and changes no accumulated state), the `exit` event
(whose payload is the numeric exit code, or null when the child was
terminated by a signal — in particular after the timeout SIGKILL), and the
`error` event (e.g. spawn failure).  A call is modelled by the trace of
those events in arrival order; the promise resolves at the first `exit` or
`error` event and never rejects. -/

inductive SpawnEvent where
  | out (s : String)
  | err (s : String)
  | timeout
  | exited (code : Option Int)
  | errored (msg : String)
deriving DecidableEq, Repr

def SpawnEvent.isTerminal : SpawnEvent → Bool
  | .exited _ => true
  | .errored _ => true
  | _ => false

/-- The value `_spawnWithLogs` resolves with (`logFile` omitted: it is the
constant path `<runDir>/exec.log`). -/
structure RunRes where
  code : Option Int
  stdout : String
  stderr : String
deriving DecidableEq, Repr

/-- Mutable state of one `_spawnWithLogs` call: the accumulated `stdout`
and `stderr` strings, the chunks forwarded to `onStdout`/`onStderr`, and
the chunks appended to the log stream, each in arrival order. -/
structure SpawnAcc where
  stdout : String := ""
  stderr : String := ""
  outChunks : List String := []
  errChunks : List String := []
  logChunks : List String := []
deriving DecidableEq, Repr

/-- Process the event trace of one `_spawnWithLogs` call: `none` means the
trace ended without `exit`/`error`, so the promise has not resolved yet. -/
def spawnGo : List SpawnEvent → SpawnAcc → SpawnAcc × Option RunRes
  | [], acc => (acc, none)
  | .out s :: rest, acc =>
    spawnGo rest { acc with
      stdout := acc.stdout ++ s
      outChunks := acc.outChunks ++ [s]
      logChunks := acc.logChunks ++ [s] }
  | .err s :: rest, acc =>
    spawnGo rest { acc with
      stderr := acc.stderr ++ s
      errChunks := acc.errChunks ++ [s]
      logChunks := acc.logChunks ++ [s] }
  | .timeout :: rest, acc => spawnGo rest acc
  | .exited c :: _, acc => (acc, some ⟨c, acc.stdout, acc.stderr⟩)
  | .errored m :: _, acc => (acc, some ⟨some (-1), acc.stdout, m⟩)

/-- One `_spawnWithLogs` call, started with empty accumulators. -/
def spawnWithLogs (evs : List SpawnEvent) : SpawnAcc × Option RunRes :=
  spawnGo evs {}

/-- Effect of the non-terminal prefix of a trace on the accumulators. -/
def accum (evs : List SpawnEvent) (acc : SpawnAcc) : SpawnAcc :=
  match evs with
  | [] => acc
  | .out s :: rest =>
    accum rest { acc with
      stdout := acc.stdout ++ s
      outChunks := acc.outChunks ++ [s]
      logChunks := acc.logChunks ++ [s] }
  | .err s :: rest =>
    accum rest { acc with
      stderr := acc.stderr ++ s
      errChunks := acc.errChunks ++ [s]
      logChunks := acc.logChunks ++ [s] }
  | _ :: rest => accum rest acc

/-- The `out` chunks of a trace, in order. -/
def outsOf (evs : List SpawnEvent) : List String :=
  evs.filterMap (fun e => match e with | .out s => some s | _ => none)

/-- The `err` chunks of a trace, in order. -/
def errsOf (evs : List SpawnEvent) : List String :=
  evs.filterMap (fun e => match e with | .err s => some s | _ => none)

/-- JavaScript `r.code < 0` as evaluated on the resolved `code` value:
`null < 0` is `false`. -/
def codeIsNeg : Option Int → Bool
  | some n => decide (n < 0)
  | none => false

/-! ## Sandbox.run (sandbox.mjs)

`Sandbox.run` decides once whether a dependency-bootstrap spawn is needed
(network permitted and the language-appropriate dependency file exists in
the tool directory), runs it first — passing the *same* `onStdout`/
`onStderr` callbacks and the same log file, and discarding its result —
and then runs the main spawn, whose resolution value is what `run`
returns.  The docker and local branches share this structure; the
difference (command line, image, env) does not affect the properties
below, so one definition covers both. -/

/-- Whether a dependency-bootstrap spawn happens before the main spawn. -/
def depInstallNeeded (network : Bool) (language : Lang) (hasPyReq hasNodePkg : Bool) : Bool :=
  network && (match language with
    | Lang.python => hasPyReq
    | Lang.node => hasNodePkg)

/-- The chunks delivered to `onStdout`/`onStderr` over the whole
`Sandbox.run` call (bootstrap spawn included). -/
structure RunObs where
  outChunks : List String
  errChunks : List String
deriving DecidableEq, Repr

/-- `Sandbox.run`, as a function of the traces of its (at most two)
spawns.  If the bootstrap spawn never resolves the call is still pending
(`none`), since the source `await`s it before the main spawn. -/
def sandboxRun (network : Bool) (language : Lang) (hasPyReq hasNodePkg : Bool)
    (installEvs mainEvs : List SpawnEvent) : RunObs × Option RunRes :=
  if depInstallNeeded network language hasPyReq hasNodePkg then
    match spawnGo installEvs {} with
    | (iacc, none) => (⟨iacc.outChunks, iacc.errChunks⟩, none)
    | (iacc, some _) =>
      let m := spawnGo mainEvs {}
      (⟨iacc.outChunks ++ m.1.outChunks, iacc.errChunks ++ m.1.errChunks⟩, m.2)
  else
    let m := spawnGo mainEvs {}
    (⟨m.1.outChunks, m.1.errChunks⟩, m.2)

/-! ## Template substitution (agent.mjs `expand`)

`expand` replaces every occurrence of the regex pattern dollar-brace EXPR
close-brace (EXPR one or more non-close-brace characters) in a string by the
value of EXPR against the current `lastRun` / `runIndex` state, and returns
non-string inputs unchanged.  The scan is implemented over character lists
with an explicit fuel argument (one unit per scanning step, the input length
is always sufficient) so that every definition kernel-reduces on concrete
inputs.  Replacement text is not rescanned, as with `String.replace` and a
callback.  Brace characters are written via `Char.ofNat` (123 and 125)
throughout. -/

def obr : Char := Char.ofNat 123

def cbr : Char := Char.ofNat 125

def dollar : Char := '$'

/-- The three field selectors accepted after `runs.<toolId>.`. -/
inductive RField where
  | stdout
  | stderr
  | code
deriving DecidableEq, Repr

def fieldChars : RField → List Char
  | RField.stdout => "stdout".toList
  | RField.stderr => "stderr".toList
  | RField.code => "code".toList

/-- `String(r[field] ?? '')` on a recorded run: strings pass through, an
integer code renders in decimal, a null code (signal-killed child) renders
as the empty string. -/
def renderField (r : RunRes) : RField → String
  | RField.stdout => r.stdout
  | RField.stderr => r.stderr
  | RField.code => match r.code with
    | some n => toString n
    | none => ""

/-- Exact-suffix test of the lazy regex tail `\.(stdout|stderr|code)$`:
succeeds only when the remaining characters are a dot followed by exactly
one field name. -/
def suffixFieldC (cs : List Char) : Option RField :=
  match cs with
  | c :: rest =>
    if c = '.' then
      if rest = "stdout".toList then some RField.stdout
      else if rest = "stderr".toList then some RField.stderr
      else if rest = "code".toList then some RField.code
      else none
    else none
  | [] => none

/-- The lazy group `(.+?)` of `^runs\.(.+?)\.(stdout|stderr|code)$`:
the shortest non-empty prefix of `rest` whose remainder is `.field`. -/
def goSplit (acc : List Char) : List Char → Option (List Char × RField)
  | [] => none
  | c :: cs =>
    match suffixFieldC cs with
    | some f => some (acc ++ [c], f)
    | none => goSplit (acc ++ [c]) cs

/-- `expr.match(/^runs\.(.+?)\.(stdout|stderr|code)$/)`. -/
def matchRunsC (e : List Char) : Option (List Char × RField) :=
  match e with
  | 'r' :: 'u' :: 'n' :: 's' :: '.' :: rest => goSplit [] rest
  | _ => none

/-- The replacement callback of `expand` on one captured expression:
`last.stdout`, `runs.<toolId>.<field>`, or anything else (empty). -/
def evalExprC (last : Option RunRes) (idx : List (String × RunRes)) (e : List Char) : List Char :=
  if e = "last.stdout".toList then ((last.map (fun r => r.stdout)).getD "").toList
  else
    match matchRunsC e with
    | some (t, f) =>
      (match idx.lookup (⟨t⟩ : String) with
        | some r => renderField r f
        | none => "").toList
    | none => []

/-- Scan for the first close brace: `takeExprGo l = some (e, a)` when
`l = e ++ close-brace :: a` with no close brace in `e`. -/
def takeExprGo : List Char → Option (List Char × List Char)
  | [] => none
  | c :: cs =>
    if c = cbr then some ([], cs)
    else
      match takeExprGo cs with
      | some (e, a) => some (c :: e, a)
      | none => none

/-- The regex body after an opening `dollar obr`: a non-empty run of
non-close-brace characters followed by the close brace.  Returns the
captured expression and the remainder after the close brace. -/
def takeExpr (l : List Char) : Option (List Char × List Char) :=
  match takeExprGo l with
  | some (e, a) => if e = [] then none else some (e, a)
  | none => none

/-- One fuel unit per scanning step; fuel `l.length` always suffices. -/
def expandF (last : Option RunRes) (idx : List (String × RunRes)) :
    Nat → List Char → List Char
  | 0, l => l
  | _ + 1, [] => []
  | fuel + 1, c :: cs =>
    if c = dollar ∧ cs.head? = some obr then
      match takeExpr cs.tail with
      | some (e, a) => evalExprC last idx e ++ expandF last idx fuel a
      | none => c :: expandF last idx fuel cs
    else
      c :: expandF last idx fuel cs

/-- `expand` on the character list of a string. -/
def expandChars (last : Option RunRes) (idx : List (String × RunRes)) (l : List Char) : List Char :=
  expandF last idx l.length l

/-- `expand` on a string value (the `!tpl` guard returns falsy strings,
i.e. the empty string, unchanged). -/
def expandStr (last : Option RunRes) (idx : List (String × RunRes)) (s : String) : String :=
  if s = "" then s else ⟨expandChars last idx s.data⟩

/-- The JavaScript values `expand` may receive from a parsed plan. -/
inductive JSVal where
  | str (s : String)
  | num (n : Int)
  | jbool (b : Bool)
  | jnull
  | jundef
deriving DecidableEq, Repr

def JSVal.isStr : JSVal → Bool
  | .str _ => true
  | _ => false

/-- `expand` on an arbitrary value: `if (!tpl || typeof tpl !== 'string')
return tpl` keeps every non-string (and the empty string) unchanged. -/
def expandVal (last : Option RunRes) (idx : List (String × RunRes)) : JSVal → JSVal
  | .str s => .str (expandStr last idx s)
  | v => v

/-- `hasDB l` holds when `l` contains an occurrence of dollar followed by
an opening brace (a potential template opener). -/
def hasDB : List Char → Bool
  | [] => false
  | c :: cs =>
    if c = dollar ∧ cs.head? = some obr then true else hasDB cs

/-! ## The run chain of the agent loop (agent.mjs `for (const call of plan.run)`)

The loop keeps three pieces of state: the `runs` list of recorded results,
the per-tool `runIndex`, and `lastRun`.  A single call performs up to three
sandbox invocations: the first attempt; a dependency-fix retry when the
first attempt failed, network is allowed, and the stderr matches the
language-specific missing-module pattern; and a model-patch retry when the
call is still failing and the model returned a `{files: ...}` patch.  The
sandbox results of those invocations and the presence of a parseable patch
are external inputs and are passed as parameters; the file-system side
effects of the dependency fix and of `writeToolCode` are not modelled.
`runIndex` is an association list with the most recent binding first, so
`List.lookup` returns what `runIndex[id]` holds in the source. -/

/-- One `RunCall` of a parsed plan (`args` entries are strings here;
`expand` on non-string values is covered by `expandVal`). -/
structure RunCall where
  id : Option String := none
  toolId : Option String := none
  args : List String := []
  stdin : Option String := none
deriving DecidableEq, Repr

/-- `call.id || call.toolId`. -/
def callId (c : RunCall) : Option String :=
  jsOrOpt c.id c.toolId

/-- One element of the `runs` array. -/
inductive RunEntry where
  | notFound (id : Option String)
  | firstRun (id : String) (args : List String) (res : RunRes)
  | depsRetry (id : String) (reason : String) (res : RunRes)
  | patchRetry (id : String) (res : RunRes)
deriving DecidableEq, Repr

structure ChainState where
  runs : List RunEntry := []
  runIndex : List (String × RunRes) := []
  lastRun : Option RunRes := none
deriving DecidableEq, Repr

/-- Quote characters accepted by the missing-module regexes. -/
def isQuoteC (c : Char) : Bool :=
  c = Char.ofNat 39 || c = Char.ofNat 34

/-- After the literal part of a missing-module regex: an opening quote, one
or more non-quote characters (the captured package name), a closing quote. -/
def matchQuoted : List Char → Option String
  | [] => none
  | c :: rest =>
    if isQuoteC c then
      match (rest.span (fun ch => !(isQuoteC ch))) with
      | (content, q :: _) =>
        if content = [] then none
        else if isQuoteC q then some ⟨content⟩ else none
      | (_, []) => none
    else none

/-- Leftmost match of `<lit><quote>pkg<quote>` in a character list. -/
def findLit (lit : List Char) : List Char → Option String
  | [] => none
  | c :: cs =>
    if lit.isPrefixOf (c :: cs) then
      match matchQuoted ((c :: cs).drop lit.length) with
      | some pkg => some pkg
      | none => findLit lit cs
    else findLit lit cs

/-- `stderr.match(/ModuleNotFoundError: No module named ['"]([^'\"]+)['"]/)`. -/
def pyMissingModule (stderr : String) : Option String :=
  findLit "ModuleNotFoundError: No module named ".toList stderr.toList

/-- `stderr.match(/Cannot find module ['"]([^'\"]+)['"]/)`. -/
def nodeMissingModule (stderr : String) : Option String :=
  findLit "Cannot find module ".toList stderr.toList

/-- Whether the heuristic dependency fix fires, and with which `reason`
string (network allowed and the language-specific pattern matches). -/
def depsMatch (network : Bool) (language : Lang) (stderr : String) : Option String :=
  if network then
    match language with
    | Lang.python => (pyMissingModule stderr).map (fun _ => "auto-install-python")
    | Lang.node => (nodeMissingModule stderr).map (fun _ => "auto-install-node")
  else none

/-- The stdin selected for the first sandbox invocation of a call:
`expand(call.stdin || '')` when the call has an own `stdin` property,
otherwise `lastRun?.stdout ?? ''`. -/
def chosenStdin (c : RunCall) (st : ChainState) : String :=
  match c.stdin with
  | some s => expandStr st.lastRun st.runIndex s
  | none => (st.lastRun.map (fun r => r.stdout)).getD ""

/-- One iteration of the run-chain loop.  Returns the updated state and the
stdin that was passed to the first `sandbox.run` invocation (`none` when
the tool was not found and no invocation happened). -/
def processCall (network : Bool) (tools : List (String × Manifest)) (c : RunCall)
    (st : ChainState) (res1 resDeps resPatch : RunRes) (patchHasFiles : Bool) :
    ChainState × Option String :=
  match (callId c).bind (fun i => (tools.lookup i).map (fun t => (i, t))) with
  | none =>
    ({ st with runs := st.runs ++ [RunEntry.notFound (callId c)] }, none)
  | some (id, t) =>
    let args := c.args.map (expandStr st.lastRun st.runIndex)
    let stdin := chosenStdin c st
    let st1 : ChainState :=
      ⟨st.runs ++ [RunEntry.firstRun id args res1], (id, res1) :: st.runIndex, some res1⟩
    if res1.code = some 0 then (st1, some stdin)
    else
      match depsMatch network t.language res1.stderr with
      | some reason =>
        let st2 : ChainState :=
          ⟨st1.runs ++ [RunEntry.depsRetry id reason resDeps],
            (id, resDeps) :: st1.runIndex, some resDeps⟩
        if resDeps.code = some 0 then (st2, some stdin)
        else if patchHasFiles then
          ({ st2 with runs := st2.runs ++ [RunEntry.patchRetry id resPatch] }, some stdin)
        else (st2, some stdin)
      | none =>
        if patchHasFiles then
          ({ st1 with runs := st1.runs ++ [RunEntry.patchRetry id resPatch] }, some stdin)
        else (st1, some stdin)

/-! ## Concrete sample data used by witnesses and counterexamples -/

/-- A schema-valid python manifest with the given id. -/
def sampleManifest (i : String) : Manifest :=
  ⟨i, "x", "p", Lang.python, "main.py", [], [], "", 0, 0⟩

def histEntryU : HistEntry := ⟨"user", "x", some 0⟩

def hist41 : List HistEntry := List.replicate 41 histEntryU

def hist2 : List HistEntry := List.replicate 2 histEntryU

def sample5Last : Option RunRes := some ⟨some 0, "OUT", "ERR"⟩

def sample5Idx : List (String × RunRes) := [("t1", ⟨some 3, "o1", "e1"⟩)]

/-! ## Claim C1 — writeToolCode path confinement -/

/-- Claim C1 evaluated at the failing input: calling `writeToolCode` with
`sandboxDir = /sb`, `toolId = t` and the file map entry
`"../../../evil"` makes `fs.writeFile` target the absolute path `/evil`,
which does not lie under `/sb/tools/t` (nor under `/sb` at all): the
source rejects nothing, contrary to the restriction the specification
states for `ToolStore.WriteCode`. -/
theorem claim1_writeToolCode_escape :
    writeToolCodeTarget ["sb"] "t" "../../../evil" = ["evil"] ∧
    List.isPrefixOf ["sb", "tools", "t"] (writeToolCodeTarget ["sb"] "t" "../../../evil") = false ∧
    List.isPrefixOf ["sb"] (writeToolCodeTarget ["sb"] "t" "../../../evil") = false := by
  refine ⟨by decide, by decide, by decide⟩

/-! ## Claim C7 — default entry filename -/

/-- Claim C7: for every `ToolSpec` that omits `entry`, the manifest passed
to `saveTool` by the tool-materialization loop has `entry = "index.mjs"`,
whatever the language (python or node) is. -/
theorem claim7_entry_default (t : ToolSpec) (now : Nat) (h : t.entry = none) :
    (materializeManifest t now).entry = "index.mjs" ∧
    (materializeManifest { t with language := some Lang.python } now).entry = "index.mjs" ∧
    (materializeManifest { t with language := some Lang.node } now).entry = "index.mjs" := by
  refine ⟨?_, ?_, ?_⟩ <;> simp [materializeManifest, jsOrS, h]

/-- Witness for C7 at a concrete spec, for both languages. -/
theorem claim7_witness :
    (materializeManifest { id := some "w7", language := some Lang.python } 5).entry = "index.mjs" ∧
    (materializeManifest { id := some "w7", language := some Lang.node } 5).entry = "index.mjs" :=
  ⟨(claim7_entry_default { id := some "w7", language := some Lang.python } 5 rfl).1,
    (claim7_entry_default { id := some "w7", language := some Lang.node } 5 rfl).1⟩

/-! ## Claim C8 — summarizeHistory -/

/-- Claim C8: with `max = 40`, `summarizeHistory` returns the history
itself when it has at most 40 entries, and otherwise one synthetic system
entry naming the number of omitted turns followed by exactly the last 40
entries (a suffix of the history of length 40).  The embedding is a pure
function, matching that the source never mutates `memory.history`. -/
theorem claim8_summarize (h : List HistEntry) :
    (h.length ≤ 40 → summarizeHistory h 40 = h) ∧
    (40 < h.length →
      summarizeHistory h 40 =
        { role := "system"
          content := "Summarized context: " ++ toString (h.length - 40) ++ " earlier turns omitted."
          ts := none } :: h.drop (h.length - 40) ∧
      (h.drop (h.length - 40)).length = 40 ∧
      h.drop (h.length - 40) <:+ h) := by
  constructor
  · intro hle
    simp [summarizeHistory, hle]
  · intro hgt
    have hne : ¬ h.length ≤ 40 := by omega
    have hkeep : jsSliceLast h 40 = h.drop (h.length - 40) := by
      simp [jsSliceLast]
    have hlen : (h.drop (h.length - 40)).length = 40 := by
      simp only [List.length_drop]
      omega
    refine ⟨?_, hlen, List.drop_suffix _ _⟩
    simp only [summarizeHistory, if_neg hne, hkeep, hlen]

/-- Witness for C8: both branches at concrete histories of length 2 and 41. -/
theorem claim8_witness :
    summarizeHistory hist2 40 = hist2 ∧
    summarizeHistory hist41 40 =
      ⟨"system", "Summarized context: 1 earlier turns omitted.", none⟩ ::
        List.replicate 40 histEntryU := by
  constructor
  · exact (claim8_summarize hist2).1 (by decide)
  · have h := ((claim8_summarize hist41).2 (by decide)).1
    rw [h]
    decide

/-! ## Claims C6 and C10 — the tool catalog -/

/-- Counterexample to C6 as stated: the manifest with id `".x"` is valid
for the `ToolManifest` schema and `saveTool` persists it into
`tools/.x/`, but `loadTools` filters out directory names beginning with a
dot, so the returned map has no key `".x"`. -/
theorem claim6_counterexample :
    (loadTools (saveTool [] (sampleManifest ".x"))).lookup (sampleManifest ".x").id = none ∧
    (sampleManifest ".x").id = ".x" := by
  refine ⟨by decide, by decide⟩

/-- Claim C6 (amended): for a valid manifest whose id is a plain directory
name — non-empty, not beginning with `.`, without path separators — the
record `loadTools` returns under key `m.id` after `saveTool m` equals `m`
on all manifest fields. -/
theorem claim6_roundtrip (fs : ToolsDir) (m : Manifest)
    (_h1 : m.id ≠ "")
    (h2 : startsWithDot m.id = false)
    (_h3 : m.id.data.contains '/' = false) :
    (loadTools (saveTool fs m)).lookup m.id = some m := by
  simp [saveTool, loadTools, List.filter_cons, h2, List.lookup]

/-- Witness for C6 at a concrete manifest with id `"x"` over a non-empty
pre-existing catalog. -/
theorem claim6_witness :
    (loadTools (saveTool [("old", DirContent.valid (sampleManifest "old"))]
        (sampleManifest "x"))).lookup (sampleManifest "x").id =
      some (sampleManifest "x") :=
  claim6_roundtrip [("old", DirContent.valid (sampleManifest "old"))]
    (sampleManifest "x") (by decide) (by decide) (by decide)

/-- Counterexample to C10 as stated: the directory `tools/.a` holds a
manifest that parses against the schema (with id `"b"`), yet `loadTools`
returns no record under key `".a"` — directories beginning with `.` are
skipped before their manifest is ever read. -/
theorem claim10_counterexample :
    (loadTools [(".a", DirContent.valid (sampleManifest "b"))]).lookup ".a" = none := by
  decide

/-- Unfolding `loadTools` over a kept, valid directory entry. -/
theorem loadTools_cons_valid (d2 : String) (m2 : Manifest) (rest : ToolsDir)
    (h : startsWithDot d2 = false) :
    loadTools ((d2, DirContent.valid m2) :: rest) = (d2, m2) :: loadTools rest := by
  simp [loadTools, List.filter_cons, h]

/-- Directory entries beginning with a dot are skipped by `loadTools`. -/
theorem loadTools_cons_dot (d2 : String) (c2 : DirContent) (rest : ToolsDir)
    (h : startsWithDot d2 = true) :
    loadTools ((d2, c2) :: rest) = loadTools rest := by
  simp [loadTools, List.filter_cons, h]

/-- Directory entries without a parsable manifest are skipped by `loadTools`. -/
theorem loadTools_cons_bad (d2 : String) (c2 : DirContent) (rest : ToolsDir)
    (hc : c2 = DirContent.missing ∨ c2 = DirContent.invalid) :
    loadTools ((d2, c2) :: rest) = loadTools rest := by
  rcases hc with hc | hc <;> subst hc <;>
    by_cases h : startsWithDot d2 <;>
      simp [loadTools, List.filter_cons, h]

/-- `List.lookup` skips a head entry with a different key. -/
theorem lookup_cons_ne (k k2 : String) (m2 : Manifest) (l : List (String × Manifest))
    (h : (k == k2) = false) :
    List.lookup k ((k2, m2) :: l) = List.lookup k l := by
  simp [List.lookup, h]

/-- Claim C10 (amended): for every directory `tools/<d>` not beginning
with `.` whose `manifest.json` parses against the schema, `loadTools`
returns the parsed manifest under key `d` — the directory name — while the
record keeps the manifest's own `id` field, so catalog key and record id
can disagree. -/
theorem claim10_key_is_dirname (fs : ToolsDir) (d : String) (m : Manifest)
    (hmem : (d, DirContent.valid m) ∈ fs)
    (hnd : (fs.map Prod.fst).Nodup)
    (hdot : startsWithDot d = false) :
    (loadTools fs).lookup d = some m := by
  induction fs with
  | nil => cases hmem
  | cons e rest ih =>
    obtain ⟨d2, c2⟩ := e
    rcases List.mem_cons.mp hmem with heq | hmem2
    · rw [Prod.mk.injEq] at heq
      obtain ⟨hd, hc⟩ := heq
      subst hd
      subst hc
      rw [loadTools_cons_valid _ _ _ hdot]
      simp [List.lookup]
    · have hd2 : d2 ≠ d := by
        intro hcontra
        subst hcontra
        have hin : d2 ∈ rest.map Prod.fst :=
          List.mem_map.mpr ⟨(d2, DirContent.valid m), hmem2, rfl⟩
        exact (List.nodup_cons.mp hnd).1 hin
      have ihr := ih hmem2 (List.nodup_cons.mp hnd).2
      have hbe : (d == d2) = false := by
        rw [beq_eq_false_iff_ne]
        exact fun h => hd2 h.symm
      by_cases hds : startsWithDot d2 = true
      · rw [loadTools_cons_dot _ _ _ hds]
        exact ihr
      · have hds2 : startsWithDot d2 = false := by
          revert hds
          cases startsWithDot d2 <;> simp
        cases c2 with
        | valid m2 =>
          rw [loadTools_cons_valid _ _ _ hds2, lookup_cons_ne _ _ _ _ hbe]
          exact ihr
        | missing =>
          rw [loadTools_cons_bad _ _ _ (Or.inl rfl)]
          exact ihr
        | invalid =>
          rw [loadTools_cons_bad _ _ _ (Or.inr rfl)]
          exact ihr

/-- Witness for C10: a directory named `"d"` holding a manifest whose id
field is `"m"` — the record is keyed by `"d"` although its id is `"m"`. -/
theorem claim10_witness :
    (loadTools [("d", DirContent.valid (sampleManifest "m"))]).lookup "d" =
      some (sampleManifest "m") ∧
    (sampleManifest "m").id ≠ "d" := by
  refine ⟨claim10_key_is_dirname [("d", DirContent.valid (sampleManifest "m"))] "d"
    (sampleManifest "m") (by decide) (by decide) (by decide), by decide⟩

/-! ## Claims C2 and C3 — sandbox resolution and stream multiplexing -/

theorem strFoldl_shift (l : List String) :
    ∀ a : String, l.foldl (· ++ ·) a = a ++ l.foldl (· ++ ·) "" := by
  induction l with
  | nil => intro a; simp [List.foldl]
  | cons s l ih =>
    intro a
    simp only [List.foldl]
    rw [ih (a ++ s), ih ("" ++ s), String.empty_append, String.append_assoc]

theorem strJoin_cons (s : String) (l : List String) :
    String.join (s :: l) = s ++ String.join l := by
  show (s :: l).foldl (· ++ ·) "" = s ++ l.foldl (· ++ ·) ""
  simp only [List.foldl]
  rw [strFoldl_shift l ("" ++ s), String.empty_append]

/-- A trace whose events are all non-terminal only feeds the accumulators;
the promise resolves at an appended `exit` event with the accumulated
stdout/stderr and the exit payload passed through unchanged. -/
theorem spawnGo_exited (pre : List SpawnEvent) :
    ∀ (acc : SpawnAcc) (c : Option Int) (tail : List SpawnEvent),
      (∀ e ∈ pre, e.isTerminal = false) →
      spawnGo (pre ++ SpawnEvent.exited c :: tail) acc =
        (accum pre acc, some ⟨c, (accum pre acc).stdout, (accum pre acc).stderr⟩) := by
  induction pre with
  | nil => intro acc c tail _; rfl
  | cons e rest ih =>
    intro acc c tail h
    have hrest : ∀ x ∈ rest, x.isTerminal = false :=
      fun x hx => h x (List.mem_cons_of_mem _ hx)
    cases e with
    | out s => simpa [spawnGo, accum] using ih _ c tail hrest
    | err s => simpa [spawnGo, accum] using ih _ c tail hrest
    | timeout => simpa [spawnGo, accum] using ih acc c tail hrest
    | exited c0 => simp [SpawnEvent.isTerminal] at h
    | errored m => simp [SpawnEvent.isTerminal] at h

/-- As `spawnGo_exited`, for the `error` event: the resolution carries
`code = -1` and the error text replaces the accumulated stderr. -/
theorem spawnGo_errored (pre : List SpawnEvent) :
    ∀ (acc : SpawnAcc) (m : String) (tail : List SpawnEvent),
      (∀ e ∈ pre, e.isTerminal = false) →
      spawnGo (pre ++ SpawnEvent.errored m :: tail) acc =
        (accum pre acc, some ⟨some (-1), (accum pre acc).stdout, m⟩) := by
  induction pre with
  | nil => intro acc m tail _; rfl
  | cons e rest ih =>
    intro acc m tail h
    have hrest : ∀ x ∈ rest, x.isTerminal = false :=
      fun x hx => h x (List.mem_cons_of_mem _ hx)
    cases e with
    | out s => simpa [spawnGo, accum] using ih _ m tail hrest
    | err s => simpa [spawnGo, accum] using ih _ m tail hrest
    | timeout => simpa [spawnGo, accum] using ih acc m tail hrest
    | exited c0 => simp [SpawnEvent.isTerminal] at h
    | errored m0 => simp [SpawnEvent.isTerminal] at h

theorem accum_stdout (pre : List SpawnEvent) :
    ∀ acc : SpawnAcc, (accum pre acc).stdout = acc.stdout ++ String.join (outsOf pre) := by
  induction pre with
  | nil =>
    intro acc
    simp only [accum, outsOf, List.filterMap_nil]
    rw [show String.join [] = "" from rfl, String.append_empty]
  | cons e rest ih =>
    intro acc
    cases e <;>
      simp [accum, outsOf, ih, strJoin_cons, String.append_assoc]

theorem accum_stderr (pre : List SpawnEvent) :
    ∀ acc : SpawnAcc, (accum pre acc).stderr = acc.stderr ++ String.join (errsOf pre) := by
  induction pre with
  | nil =>
    intro acc
    simp only [accum, errsOf, List.filterMap_nil]
    rw [show String.join [] = "" from rfl, String.append_empty]
  | cons e rest ih =>
    intro acc
    cases e <;>
      simp [accum, errsOf, ih, strJoin_cons, String.append_assoc]

theorem accum_outChunks (pre : List SpawnEvent) :
    ∀ acc : SpawnAcc, (accum pre acc).outChunks = acc.outChunks ++ outsOf pre := by
  induction pre with
  | nil => intro acc; simp [accum, outsOf]
  | cons e rest ih =>
    intro acc
    cases e <;> simp [accum, outsOf, ih]

theorem accum_errChunks (pre : List SpawnEvent) :
    ∀ acc : SpawnAcc, (accum pre acc).errChunks = acc.errChunks ++ errsOf pre := by
  induction pre with
  | nil => intro acc; simp [accum, errsOf]
  | cons e rest ih =>
    intro acc
    cases e <;> simp [accum, errsOf, ih]

/-- Claim C2 (amended): for any trace of non-terminal events `pre`
(timeout firings included), `_spawnWithLogs` resolves — it never rejects —
as soon as a terminal event arrives: at an `exit` event the resolved code
is exactly the payload Node reports (`null`, not a negative number, for a
child killed by the timeout's SIGKILL), and at an `error` event the code
is `-1` with the error text as `stderr`; the partial stdout/stderr
captured so far is preserved in both cases. -/
theorem claim2_resolution (pre : List SpawnEvent) (c : Option Int) (m : String)
    (h : ∀ e ∈ pre, e.isTerminal = false) :
    spawnWithLogs (pre ++ [SpawnEvent.exited c]) =
      (accum pre {}, some ⟨c, (accum pre {}).stdout, (accum pre {}).stderr⟩) ∧
    spawnWithLogs (pre ++ [SpawnEvent.errored m]) =
      (accum pre {}, some ⟨some (-1), (accum pre {}).stdout, m⟩) :=
  ⟨spawnGo_exited pre {} c [] h, spawnGo_errored pre {} m [] h⟩

/-- Witness for C2: a concrete partial-output trace resolved by an exit
after a timeout kill, and the same prefix resolved by a spawn error. -/
theorem claim2_witness :
    spawnWithLogs ([SpawnEvent.out "a", SpawnEvent.timeout] ++ [SpawnEvent.exited none]) =
      (⟨"a", "", ["a"], [], ["a"]⟩, some ⟨none, "a", ""⟩) ∧
    spawnWithLogs ([SpawnEvent.out "a", SpawnEvent.timeout] ++ [SpawnEvent.errored "spawn fail"]) =
      (⟨"a", "", ["a"], [], ["a"]⟩, some ⟨some (-1), "a", "spawn fail"⟩) := by
  have h := claim2_resolution [SpawnEvent.out "a", SpawnEvent.timeout] none "spawn fail"
    (by decide)
  refine ⟨?_, ?_⟩
  · rw [h.1]; rfl
  · rw [h.2]; rfl

/-- Counterexample to C2 as stated: on the canonical timeout trace —
partial output, the timer fires and SIGKILLs the child, Node delivers
`exit` with a `null` code — the run resolves with `code = null`, which is
not a code less than 0 (in JavaScript `null < 0` is `false`). -/
theorem claim2_counterexample :
    (spawnWithLogs [SpawnEvent.out "par", SpawnEvent.timeout, SpawnEvent.exited none]).2 =
      some ⟨none, "par", ""⟩ ∧
    codeIsNeg (none : Option Int) = false := by
  refine ⟨rfl, rfl⟩

/-- Claim C3 (amended): when the main child resolves via `exit`,
`r.stdout` / `r.stderr` are the concatenations of the chunks the *main*
spawn delivered to `onStdout` / `onStderr`; and when no dependency
bootstrap runs (network disabled or no dependency file), those are exactly
all chunks delivered during the `Sandbox.run` call.  When a bootstrap
spawn runs, its chunks go to the same callbacks but are not part of
`r.stdout`/`r.stderr`. -/
theorem claim3_chunks (network : Bool) (language : Lang) (hpq hnp : Bool)
    (ipre pre : List SpawnEvent) (ic c : Option Int)
    (hi : ∀ e ∈ ipre, e.isTerminal = false) (hp : ∀ e ∈ pre, e.isTerminal = false) :
    (sandboxRun network language hpq hnp (ipre ++ [SpawnEvent.exited ic])
        (pre ++ [SpawnEvent.exited c])).2 =
      some ⟨c, String.join (outsOf pre), String.join (errsOf pre)⟩ ∧
    (depInstallNeeded network language hpq hnp = false →
      (sandboxRun network language hpq hnp (ipre ++ [SpawnEvent.exited ic])
          (pre ++ [SpawnEvent.exited c])).1 = ⟨outsOf pre, errsOf pre⟩) := by
  have hm := spawnGo_exited pre {} c [] hp
  have hio := spawnGo_exited ipre {} ic [] hi
  have hso : (accum pre {}).stdout = String.join (outsOf pre) := by
    rw [accum_stdout]
    exact String.empty_append _
  have hse : (accum pre {}).stderr = String.join (errsOf pre) := by
    rw [accum_stderr]
    exact String.empty_append _
  constructor
  · by_cases hD : depInstallNeeded network language hpq hnp
    · simp only [sandboxRun, if_pos hD, hio, hm, hso, hse]
    · simp only [sandboxRun, if_neg hD, hm, hso, hse]
  · intro hD
    have hD2 : ¬ depInstallNeeded network language hpq hnp := by
      simp [hD]
    simp only [sandboxRun, if_neg hD2, hm]
    rw [RunObs.mk.injEq, accum_outChunks, accum_errChunks]
    constructor
    · exact List.nil_append _
    · exact List.nil_append _

/-- Witness for C3: a bootstrap-free run whose child emits one stdout and
one stderr chunk and exits 2. -/
theorem claim3_witness :
    (sandboxRun false Lang.python false false [SpawnEvent.exited none]
        ([SpawnEvent.out "a", SpawnEvent.err "b"] ++ [SpawnEvent.exited (some 2)])).2 =
      some ⟨some 2, "a", "b"⟩ ∧
    (sandboxRun false Lang.python false false [SpawnEvent.exited none]
        ([SpawnEvent.out "a", SpawnEvent.err "b"] ++ [SpawnEvent.exited (some 2)])).1 =
      ⟨["a"], ["b"]⟩ := by
  have h := claim3_chunks false Lang.python false false []
    [SpawnEvent.out "a", SpawnEvent.err "b"] none (some 2) (by decide) (by decide)
  rw [show ([] : List SpawnEvent) ++ [SpawnEvent.exited none] = [SpawnEvent.exited none]
    from rfl] at h
  refine ⟨?_, ?_⟩
  · rw [h.1]; rfl
  · rw [h.2 (by decide)]; rfl

/-- Counterexample to C3 as stated: (a) with network allowed, a python
tool with `requirements.txt` triggers a pip-install bootstrap spawn whose
output goes to the same `onStdout` callback, so the chunks delivered
during the run concatenate to more than `r.stdout`; (b) on a spawn
startup error, `r.stderr` is the error text although no `onStderr` chunk
was delivered. -/
theorem claim3_counterexample :
    (sandboxRun true Lang.python true false
        [SpawnEvent.out "I", SpawnEvent.exited (some 0)]
        [SpawnEvent.out "hi", SpawnEvent.exited (some 0)]).1.outChunks = ["I", "hi"] ∧
    (sandboxRun true Lang.python true false
        [SpawnEvent.out "I", SpawnEvent.exited (some 0)]
        [SpawnEvent.out "hi", SpawnEvent.exited (some 0)]).2 = some ⟨some 0, "hi", ""⟩ ∧
    ("hi" : String) ≠ String.join ["I", "hi"] ∧
    (sandboxRun false Lang.python false false []
        [SpawnEvent.errored "spawn ENOENT"]).2 = some ⟨some (-1), "", "spawn ENOENT"⟩ ∧
    (sandboxRun false Lang.python false false []
        [SpawnEvent.errored "spawn ENOENT"]).1.errChunks = [] ∧
    ("spawn ENOENT" : String) ≠ String.join [] := by
  refine ⟨rfl, rfl, by decide, rfl, rfl, by decide⟩

/-! ## Claims C4 and C9 — stdin chaining and the model-patch frame -/

/-- Whenever the tool lookup succeeds, the stdin passed to the first
sandbox invocation of the call is `chosenStdin c st`, independently of the
outcome of the call. -/
theorem processCall_found_snd (network : Bool) (tools : List (String × Manifest))
    (c : RunCall) (st : ChainState) (res1 resDeps resPatch : RunRes) (pf : Bool)
    (id : String) (t : Manifest)
    (hc : callId c = some id) (ht : tools.lookup id = some t) :
    (processCall network tools c st res1 resDeps resPatch pf).2 =
      some (chosenStdin c st) := by
  simp only [processCall, hc, ht, Option.some_bind, Option.map_some, Option.map_some']
  repeat' split
  all_goals rfl

/-- Claim C4 (amended): in the run chain, a call that omits `stdin` gets
the stdout of the most recent *recorded* run — regardless of whether that
run succeeded — or the empty string when no run has been recorded; a call
that supplies a string has it template-expanded, and an empty-string
stdin stays empty. -/
theorem claim4_stdin_default (network : Bool) (tools : List (String × Manifest))
    (c : RunCall) (st : ChainState) (res1 resDeps resPatch : RunRes) (pf : Bool)
    (id : String) (t : Manifest)
    (hc : callId c = some id) (ht : tools.lookup id = some t) :
    ((processCall network tools c st res1 resDeps resPatch pf).2 =
      some (chosenStdin c st)) ∧
    (c.stdin = none →
      chosenStdin c st = (st.lastRun.map (fun r => r.stdout)).getD "") ∧
    (∀ s, c.stdin = some s → chosenStdin c st = expandStr st.lastRun st.runIndex s) ∧
    (c.stdin = some "" → chosenStdin c st = "") := by
  refine ⟨processCall_found_snd network tools c st res1 resDeps resPatch pf id t hc ht,
    ?_, ?_, ?_⟩
  · intro h
    simp [chosenStdin, h]
  · intro s h
    simp [chosenStdin, h]
  · intro h
    simp [chosenStdin, h, expandStr]

/-- Witness for C4: with a recorded failed run (`code = 1`) whose stdout is
`"po"`, a stdin-omitting call pipes `"po"`, and a call supplying the empty
string passes the empty string. -/
theorem claim4_witness :
    (processCall false [("t", sampleManifest "t")] ⟨some "t", none, [], none⟩
        ⟨[], [], some ⟨some 1, "po", ""⟩⟩ ⟨some 0, "", ""⟩ ⟨none, "", ""⟩ ⟨none, "", ""⟩
        false).2 = some "po" ∧
    (processCall false [("t", sampleManifest "t")] ⟨some "t", none, [], some ""⟩
        ⟨[], [], some ⟨some 1, "po", ""⟩⟩ ⟨some 0, "", ""⟩ ⟨none, "", ""⟩ ⟨none, "", ""⟩
        false).2 = some "" := by
  constructor
  · have h := claim4_stdin_default false [("t", sampleManifest "t")]
      ⟨some "t", none, [], none⟩ ⟨[], [], some ⟨some 1, "po", ""⟩⟩
      ⟨some 0, "", ""⟩ ⟨none, "", ""⟩ ⟨none, "", ""⟩ false "t" (sampleManifest "t")
      (by decide) (by decide)
    rw [h.1, h.2.1 rfl]
    rfl
  · have h := claim4_stdin_default false [("t", sampleManifest "t")]
      ⟨some "t", none, [], some ""⟩ ⟨[], [], some ⟨some 1, "po", ""⟩⟩
      ⟨some 0, "", ""⟩ ⟨none, "", ""⟩ ⟨none, "", ""⟩ false "t" (sampleManifest "t")
      (by decide) (by decide)
    rw [h.1, h.2.2.2 rfl]

/-- Counterexample to C4 as stated: run 1 of tool `t` fails (`code = 1`,
stdout `"partial"`, no dependency pattern in stderr, no patch), yet the
following stdin-omitting call receives `"partial"` as stdin — not the
stdout of a previous *successful* run (there is none, so the claim
requires the empty string). -/
theorem claim4_counterexample :
    (processCall true [("t", sampleManifest "t")] ⟨some "t", none, [], none⟩
        (processCall true [("t", sampleManifest "t")] ⟨some "t", none, [], some "x"⟩
          ⟨[], [], none⟩ ⟨some 1, "partial", "boom"⟩ ⟨none, "", ""⟩ ⟨none, "", ""⟩
          false).1
        ⟨some 0, "", ""⟩ ⟨none, "", ""⟩ ⟨none, "", ""⟩ false).2 = some "partial" ∧
    (((processCall true [("t", sampleManifest "t")] ⟨some "t", none, [], some "x"⟩
        ⟨[], [], none⟩ ⟨some 1, "partial", "boom"⟩ ⟨none, "", ""⟩ ⟨none, "", ""⟩
        false).1).lastRun.map (fun r => r.code)) = some (some 1) ∧
    ("partial" : String) ≠ "" := by
  refine ⟨by decide, by decide, by decide⟩

/-- Claim C9: when the heuristic dependency fix does not apply (or fails)
and the model returns a patch, the patch retry's result is appended to the
`runs` list but `runIndex` and `lastRun` are left untouched — they still
hold the pre-patch attempt — so stdin chaining and template expansion in
subsequent calls observe the pre-patch output. -/
theorem claim9_patch_frame (network : Bool) (tools : List (String × Manifest))
    (c : RunCall) (st : ChainState) (res1 resDeps resPatch : RunRes)
    (id : String) (t : Manifest)
    (hc : callId c = some id) (ht : tools.lookup id = some t)
    (h1 : ¬ res1.code = some 0) :
    (depsMatch network t.language res1.stderr = none →
      processCall network tools c st res1 resDeps resPatch true =
        (⟨st.runs ++ [RunEntry.firstRun id (c.args.map (expandStr st.lastRun st.runIndex)) res1,
            RunEntry.patchRetry id resPatch],
          (id, res1) :: st.runIndex, some res1⟩, some (chosenStdin c st))) ∧
    (∀ reason, depsMatch network t.language res1.stderr = some reason →
      ¬ resDeps.code = some 0 →
      processCall network tools c st res1 resDeps resPatch true =
        (⟨st.runs ++ [RunEntry.firstRun id (c.args.map (expandStr st.lastRun st.runIndex)) res1,
            RunEntry.depsRetry id reason resDeps, RunEntry.patchRetry id resPatch],
          (id, resDeps) :: (id, res1) :: st.runIndex, some resDeps⟩, some (chosenStdin c st))) := by
  constructor
  · intro hdeps
    simp only [processCall, hc, ht, Option.some_bind, Option.map_some, Option.map_some',
      if_neg h1, if_true]
    rw [hdeps]
    simp [List.append_assoc]
  · intro reason hdeps hrd
    simp only [processCall, hc, ht, Option.some_bind, Option.map_some, Option.map_some',
      if_neg h1, if_neg hrd, if_true]
    rw [hdeps]
    simp [List.append_assoc]

/-- Witness for C9 at concrete inputs: the failing first attempt stays in
`runIndex`/`lastRun` while the successful patch retry only lands in
`runs`. -/
theorem claim9_witness :
    processCall false [("t", sampleManifest "t")] ⟨some "t", none, [], some "x"⟩
        ⟨[], [], none⟩ ⟨some 1, "", "err1"⟩ ⟨none, "", ""⟩ ⟨some 0, "patched", ""⟩ true =
      (⟨[RunEntry.firstRun "t" [] ⟨some 1, "", "err1"⟩,
          RunEntry.patchRetry "t" ⟨some 0, "patched", ""⟩],
        [("t", ⟨some 1, "", "err1"⟩)], some ⟨some 1, "", "err1"⟩⟩, some "x") := by
  have h := (claim9_patch_frame false [("t", sampleManifest "t")]
    ⟨some "t", none, [], some "x"⟩ ⟨[], [], none⟩ ⟨some 1, "", "err1"⟩ ⟨none, "", ""⟩
    ⟨some 0, "patched", ""⟩ "t" (sampleManifest "t") (by decide) (by decide)
    (by decide)).1 rfl
  rw [h]
  decide

/-! ## Claim C5 — template substitution -/

theorem takeExprGo_append (e : List Char) :
    ∀ a : List Char, (∀ ch ∈ e, ch ≠ cbr) →
      takeExprGo (e ++ cbr :: a) = some (e, a) := by
  induction e with
  | nil => intro a _; simp [takeExprGo]
  | cons c cs ih =>
    intro a h
    have hc : c ≠ cbr := h c (List.mem_cons_self c cs)
    have hrest := ih a (fun ch hch => h ch (List.mem_cons_of_mem _ hch))
    simp [takeExprGo, hc, hrest]

theorem takeExprGo_sound (l : List Char) :
    ∀ e a : List Char, takeExprGo l = some (e, a) → l = e ++ cbr :: a := by
  induction l with
  | nil => intro e a h; simp [takeExprGo] at h
  | cons c cs ih =>
    intro e a h
    by_cases hc : c = cbr
    · subst hc
      simp [takeExprGo] at h
      obtain ⟨he, ha⟩ := h
      subst he
      subst ha
      rfl
    · simp only [takeExprGo, if_neg hc] at h
      cases hgo : takeExprGo cs with
      | none => rw [hgo] at h; cases h
      | some p =>
        obtain ⟨e2, a2⟩ := p
        rw [hgo] at h
        simp only [Option.some.injEq, Prod.mk.injEq] at h
        obtain ⟨he, ha⟩ := h
        subst he
        subst ha
        rw [ih e2 a2 hgo]
        rfl

theorem takeExpr_append (e a : List Char) (he : e ≠ []) (h : ∀ ch ∈ e, ch ≠ cbr) :
    takeExpr (e ++ cbr :: a) = some (e, a) := by
  simp [takeExpr, takeExprGo_append e a h, he]

theorem takeExpr_sound (l e a : List Char) (h : takeExpr l = some (e, a)) :
    l = e ++ cbr :: a ∧ e ≠ [] := by
  simp only [takeExpr] at h
  cases hgo : takeExprGo l with
  | none => rw [hgo] at h; cases h
  | some p =>
    obtain ⟨e2, a2⟩ := p
    rw [hgo] at h
    by_cases he2 : e2 = []
    · simp [he2] at h
    · simp only [if_neg he2, Option.some.injEq, Prod.mk.injEq] at h
      obtain ⟨hee, haa⟩ := h
      subst hee
      subst haa
      exact ⟨takeExprGo_sound l _ _ hgo, he2⟩

theorem expandF_nilF (last : Option RunRes) (idx : List (String × RunRes)) (f : Nat) :
    expandF last idx f [] = [] := by
  cases f <;> rfl

theorem expandF_cons_lit (last : Option RunRes) (idx : List (String × RunRes))
    (f : Nat) (c : Char) (cs : List Char)
    (h : ¬ (c = dollar ∧ cs.head? = some obr)) :
    expandF last idx (f + 1) (c :: cs) = c :: expandF last idx f cs := by
  simp [expandF, h]

theorem expandF_open (last : Option RunRes) (idx : List (String × RunRes))
    (f : Nat) (rest : List Char) :
    expandF last idx (f + 1) (dollar :: obr :: rest) =
      match takeExpr rest with
      | some (e, a) => evalExprC last idx e ++ expandF last idx f a
      | none => dollar :: expandF last idx f (obr :: rest) := by
  simp [expandF]

theorem hasDB_cons (c : Char) (cs : List Char) :
    hasDB (c :: cs) = if c = dollar ∧ cs.head? = some obr then true else hasDB cs := rfl

/-- Two sufficient fuels compute the same expansion. -/
theorem expandF_ext (last : Option RunRes) (idx : List (String × RunRes)) :
    ∀ f1 f2 : Nat, ∀ l : List Char, l.length ≤ f1 → l.length ≤ f2 →
      expandF last idx f1 l = expandF last idx f2 l := by
  intro f1
  induction f1 with
  | zero =>
    intro f2 l h1 _
    have hl : l = [] := List.eq_nil_of_length_eq_zero (Nat.le_zero.mp h1)
    subst hl
    rw [expandF_nilF, expandF_nilF]
  | succ f ih =>
    intro f2 l h1 h2
    cases l with
    | nil => rw [expandF_nilF, expandF_nilF]
    | cons c cs =>
      cases f2 with
      | zero => simp at h2
      | succ f2p =>
        by_cases hop : c = dollar ∧ cs.head? = some obr
        · obtain ⟨hc, hh⟩ := hop
          subst hc
          cases cs with
          | nil => simp at hh
          | cons c2 rest =>
            simp only [List.head?_cons, Option.some.injEq] at hh
            subst hh
            rw [expandF_open, expandF_open]
            cases hte : takeExpr rest with
            | none =>
              simp only [hte]
              have h1r : (obr :: rest).length ≤ f := by
                simp only [List.length_cons] at h1 ⊢
                omega
              have h2r : (obr :: rest).length ≤ f2p := by
                simp only [List.length_cons] at h2 ⊢
                omega
              rw [ih f2p (obr :: rest) h1r h2r]
            | some p =>
              obtain ⟨e, a⟩ := p
              simp only [hte]
              have hsound := (takeExpr_sound rest e a hte).1
              have hrl : rest.length = e.length + a.length + 1 := by
                rw [hsound]
                simp [List.length_append]
                omega
              have h1a : a.length ≤ f := by
                simp only [List.length_cons] at h1
                omega
              have h2a : a.length ≤ f2p := by
                simp only [List.length_cons] at h2
                omega
              rw [ih f2p a h1a h2a]
        · rw [expandF_cons_lit _ _ _ _ _ hop, expandF_cons_lit _ _ _ _ _ hop]
          have h1c : cs.length ≤ f := by
            simp only [List.length_cons] at h1
            omega
          have h2c : cs.length ≤ f2p := by
            simp only [List.length_cons] at h2
            omega
          rw [ih f2p cs h1c h2c]

/-- A literal prefix without template openers passes through the scan
unchanged (the remainder begins with a dollar or is empty, so no opener
straddles the boundary). -/
theorem expandF_lit (last : Option RunRes) (idx : List (String × RunRes)) :
    ∀ (pre : List Char) (fuel : Nat) (rest : List Char),
      hasDB pre = false →
      (pre ++ rest).length ≤ fuel →
      (rest = [] ∨ rest.head? = some dollar) →
      expandF last idx fuel (pre ++ rest) =
        pre ++ expandF last idx (fuel - pre.length) rest := by
  intro pre
  induction pre with
  | nil =>
    intro fuel rest _ _ _
    simp
  | cons c pre2 ih =>
    intro fuel rest hdb hlen hbd
    cases fuel with
    | zero =>
      exfalso
      simp [List.length_append] at hlen
    | succ f =>
      rw [hasDB_cons] at hdb
      have hop : ¬ (c = dollar ∧ (pre2 ++ rest).head? = some obr) := by
        cases pre2 with
        | nil =>
          rcases hbd with hr | hr
          · subst hr
            simp
          · intro hcon
            obtain ⟨hc, hh⟩ := hcon
            rw [List.nil_append, hr] at hh
            have hdo : dollar = obr := by injection hh
            exact absurd hdo (by decide)
        | cons p2 pre3 =>
          intro hcon
          obtain ⟨hc, hh⟩ := hcon
          simp only [List.cons_append, List.head?_cons, Option.some.injEq] at hh
          rw [if_pos ⟨hc, by simp [hh]⟩] at hdb
          cases hdb
      have hdb2 : hasDB pre2 = false := by
        by_cases hcond : c = dollar ∧ pre2.head? = some obr
        · rw [if_pos hcond] at hdb
          cases hdb
        · rw [if_neg hcond] at hdb
          exact hdb
      rw [List.cons_append, expandF_cons_lit _ _ _ _ _ hop]
      have hlen2 : (pre2 ++ rest).length ≤ f := by
        simp only [List.cons_append, List.length_cons] at hlen
        omega
      rw [ih f rest hdb2 hlen2 hbd]
      rw [show (f + 1) - (c :: pre2).length = f - pre2.length from by
        simp only [List.length_cons]
        omega]
      rfl

/-- Strings without a template opener expand to themselves. -/
theorem expandF_noDB (last : Option RunRes) (idx : List (String × RunRes))
    (fuel : Nat) (l : List Char) (h : hasDB l = false) (hl : l.length ≤ fuel) :
    expandF last idx fuel l = l := by
  have hx := expandF_lit last idx l fuel [] h (by simpa using hl) (Or.inl rfl)
  rw [List.append_nil] at hx
  rw [hx, expandF_nilF, List.append_nil]

/-- The heart of C5: the scan copies a literal prefix, replaces the
delimited expression by its evaluation, and continues after the closing
brace. -/
theorem expandF_open_some (last : Option RunRes) (idx : List (String × RunRes))
    (f : Nat) (rest e a : List Char) (h : takeExpr rest = some (e, a)) :
    expandF last idx (f + 1) (dollar :: obr :: rest) =
      evalExprC last idx e ++ expandF last idx f a := by
  rw [expandF_open, h]

theorem expandChars_placeholder (last : Option RunRes) (idx : List (String × RunRes))
    (pre e post : List Char)
    (hpre : hasDB pre = false) (he : e ≠ []) (hne : ∀ ch ∈ e, ch ≠ cbr) :
    expandChars last idx (pre ++ dollar :: obr :: (e ++ cbr :: post)) =
      pre ++ evalExprC last idx e ++ expandChars last idx post := by
  rw [show expandChars last idx (pre ++ dollar :: obr :: (e ++ cbr :: post)) =
    expandF last idx ((pre ++ dollar :: obr :: (e ++ cbr :: post)).length)
      (pre ++ dollar :: obr :: (e ++ cbr :: post)) from rfl]
  rw [expandF_lit last idx pre _ (dollar :: obr :: (e ++ cbr :: post)) hpre (le_refl _)
    (Or.inr rfl)]
  rw [show (pre ++ dollar :: obr :: (e ++ cbr :: post)).length - pre.length
      = ((e ++ cbr :: post).length + 1) + 1 from by
    simp only [List.length_append, List.length_cons]
    omega]
  rw [expandF_open_some last idx _ _ e post (takeExpr_append e post he hne)]
  have hpost : expandF last idx ((e ++ cbr :: post).length + 1) post =
      expandChars last idx post := by
    apply expandF_ext
    · simp only [List.length_append, List.length_cons]
      omega
    · exact le_refl _
  rw [hpost, List.append_assoc]

theorem suffixFieldC_dot_field (f : RField) :
    suffixFieldC ('.' :: fieldChars f) = some f := by
  cases f <;> rfl

theorem suffixFieldC_head_ne (c : Char) (cs : List Char) (h : c ≠ '.') :
    suffixFieldC (c :: cs) = none := by
  simp [suffixFieldC, h]

theorem suffixFieldC_sound (cs : List Char) (f : RField)
    (h : suffixFieldC cs = some f) : cs = '.' :: fieldChars f := by
  cases cs with
  | nil => cases h
  | cons c rest =>
    by_cases hc : c = '.'
    · subst hc
      rw [show suffixFieldC ('.' :: rest) =
          (if rest = "stdout".toList then some RField.stdout
            else if rest = "stderr".toList then some RField.stderr
            else if rest = "code".toList then some RField.code
            else none) from by simp [suffixFieldC]] at h
      by_cases g1 : rest = "stdout".toList
      · rw [if_pos g1] at h
        injection h with hf
        subst hf
        rw [g1]
        rfl
      · rw [if_neg g1] at h
        by_cases g2 : rest = "stderr".toList
        · rw [if_pos g2] at h
          injection h with hf
          subst hf
          rw [g2]
          rfl
        · rw [if_neg g2] at h
          by_cases g3 : rest = "code".toList
          · rw [if_pos g3] at h
            injection h with hf
            subst hf
            rw [g3]
            rfl
          · rw [if_neg g3] at h
            cases h
    · rw [suffixFieldC_head_ne c rest hc] at h
      cases h

theorem goSplit_cons (acc : List Char) (c : Char) (cs : List Char) :
    goSplit acc (c :: cs) =
      match suffixFieldC cs with
      | some f => some (acc ++ [c], f)
      | none => goSplit (acc ++ [c]) cs := rfl

theorem goSplit_exact (t : List Char) :
    ∀ (acc : List Char) (f : RField), t ≠ [] → (∀ ch ∈ t, ch ≠ '.') →
      goSplit acc (t ++ '.' :: fieldChars f) = some (acc ++ t, f) := by
  induction t with
  | nil => intro acc f ht _; exact absurd rfl ht
  | cons c t2 ih =>
    intro acc f _ hdot
    cases t2 with
    | nil =>
      simp [goSplit, suffixFieldC_dot_field f]
    | cons c2 t3 =>
      have hc2 : c2 ≠ '.' := hdot c2 (by simp)
      have hrest := ih (acc ++ [c]) f (by simp)
        (fun ch hch => hdot ch (List.mem_cons_of_mem _ hch))
      rw [List.cons_append, goSplit_cons, List.cons_append,
        suffixFieldC_head_ne c2 (t3 ++ '.' :: fieldChars f) hc2]
      show goSplit (acc ++ [c]) (c2 :: (t3 ++ '.' :: fieldChars f)) =
        some (acc ++ c :: c2 :: t3, f)
      rw [List.cons_append] at hrest
      rw [hrest]
      simp

theorem goSplit_sound (rest : List Char) :
    ∀ (acc t : List Char) (f : RField), goSplit acc rest = some (t, f) →
      ∃ t2, t2 ≠ [] ∧ t = acc ++ t2 ∧ rest = t2 ++ '.' :: fieldChars f := by
  induction rest with
  | nil => intro acc t f h; cases h
  | cons c cs ih =>
    intro acc t f h
    cases hs : suffixFieldC cs with
    | some f0 =>
      rw [goSplit_cons, hs] at h
      simp only [Option.some.injEq, Prod.mk.injEq] at h
      obtain ⟨ht, hf⟩ := h
      subst hf
      refine ⟨[c], by simp, by simp [ht.symm], ?_⟩
      rw [suffixFieldC_sound cs _ hs]
      rfl
    | none =>
      rw [goSplit_cons, hs] at h
      obtain ⟨t2, ht2, hteq, hcseq⟩ := ih (acc ++ [c]) t _ h
      refine ⟨c :: t2, by simp, by simp [hteq], by simp [hcseq]⟩

theorem matchRunsC_runs (t : List Char) (f : RField)
    (ht : t ≠ []) (hdot : ∀ ch ∈ t, ch ≠ '.') :
    matchRunsC ("runs.".toList ++ t ++ '.' :: fieldChars f) = some (t, f) := by
  have h := goSplit_exact t [] f ht hdot
  simpa [matchRunsC] using h

theorem matchRunsC_sound (e t : List Char) (f : RField)
    (h : matchRunsC e = some (t, f)) :
    e = "runs.".toList ++ t ++ '.' :: fieldChars f := by
  unfold matchRunsC at h
  split at h
  next rest =>
    obtain ⟨t2, ht2, hteq, hreq⟩ := goSplit_sound rest [] t f h
    rw [List.nil_append] at hteq
    subst hteq
    rw [hreq]
    rfl
  next =>
    cases h

theorem evalExprC_last (last : Option RunRes) (idx : List (String × RunRes)) :
    evalExprC last idx "last.stdout".toList =
      ((last.map (fun r => r.stdout)).getD "").toList := by
  simp [evalExprC]

theorem evalExprC_runs (last : Option RunRes) (idx : List (String × RunRes))
    (t : List Char) (f : RField) (ht : t ≠ []) (hdot : ∀ ch ∈ t, ch ≠ '.') :
    evalExprC last idx ("runs.".toList ++ t ++ '.' :: fieldChars f) =
      (match idx.lookup (⟨t⟩ : String) with
        | some r => renderField r f
        | none => "").toList := by
  have hne : "runs.".toList ++ t ++ '.' :: fieldChars f ≠ "last.stdout".toList := by
    intro hcon
    rw [show ("runs.".toList : List Char) = ['r', 'u', 'n', 's', '.'] from rfl] at hcon
    rw [show ("last.stdout".toList : List Char)
      = ['l', 'a', 's', 't', '.', 's', 't', 'd', 'o', 'u', 't'] from rfl] at hcon
    simp at hcon
  rw [evalExprC, if_neg hne, matchRunsC_runs t f ht hdot]

theorem evalExprC_unknown (last : Option RunRes) (idx : List (String × RunRes))
    (e : List Char) (h1 : e ≠ "last.stdout".toList)
    (h2 : ∀ (t : List Char) (f : RField), e ≠ "runs.".toList ++ t ++ '.' :: fieldChars f) :
    evalExprC last idx e = [] := by
  rw [evalExprC, if_neg h1]
  cases hm : matchRunsC e with
  | none => rfl
  | some p =>
    obtain ⟨t, f⟩ := p
    exact absurd (matchRunsC_sound e t f hm) (h2 t f)

/-- Claim C5: `expand` replaces every occurrence of a dollar-brace-delimited
expression: a string decomposes into opener-free literal segments and
delimited expressions, literal text passes through unchanged (conjuncts 1
and 2 characterize the whole scan); `last.stdout` evaluates to the most
recent run's stdout (empty when none); `runs.<toolId>.<field>` evaluates to
that field of the last recorded run of the tool (empty when the tool has no
recorded run), with an integer `code` rendered as a decimal string; every
other expression evaluates to the empty string; and non-string inputs pass
through unchanged. -/
theorem claim5_expansion (last : Option RunRes) (idx : List (String × RunRes)) :
    (∀ pre e post : List Char, hasDB pre = false → e ≠ [] → (∀ ch ∈ e, ch ≠ cbr) →
      expandChars last idx (pre ++ dollar :: obr :: (e ++ cbr :: post)) =
        pre ++ evalExprC last idx e ++ expandChars last idx post) ∧
    (∀ l : List Char, hasDB l = false → expandChars last idx l = l) ∧
    (evalExprC last idx "last.stdout".toList =
      ((last.map (fun r => r.stdout)).getD "").toList) ∧
    (∀ (t : List Char) (f : RField), t ≠ [] → (∀ ch ∈ t, ch ≠ '.') →
      evalExprC last idx ("runs.".toList ++ t ++ '.' :: fieldChars f) =
        (match idx.lookup (⟨t⟩ : String) with
          | some r => renderField r f
          | none => "").toList) ∧
    (∀ (n : Int) (so se : String), renderField ⟨some n, so, se⟩ RField.code = toString n) ∧
    (∀ e : List Char, e ≠ "last.stdout".toList →
      (∀ (t : List Char) (f : RField), e ≠ "runs.".toList ++ t ++ '.' :: fieldChars f) →
      evalExprC last idx e = []) ∧
    (∀ v : JSVal, v.isStr = false → expandVal last idx v = v) := by
  refine ⟨expandChars_placeholder last idx, ?_, evalExprC_last last idx,
    evalExprC_runs last idx, fun n so se => rfl, evalExprC_unknown last idx, ?_⟩
  · intro l h
    exact expandF_noDB last idx l.length l h (le_refl _)
  · intro v hv
    cases v <;> first
      | rfl
      | simp [JSVal.isStr] at hv

/-- Witness for C5 at concrete state and templates: a literal-wrapped
`last.stdout` placeholder, a `runs.t1.code` lookup rendered in decimal,
an unknown expression expanding to empty, and a non-string value passing
through. -/
theorem claim5_witness :
    expandChars sample5Last sample5Idx
        ("x=".toList ++ dollar :: obr :: ("last.stdout".toList ++ cbr :: "y".toList)) =
      "x=OUTy".toList ∧
    evalExprC sample5Last sample5Idx
        ("runs.".toList ++ "t1".toList ++ '.' :: fieldChars RField.code) = "3".toList ∧
    evalExprC sample5Last sample5Idx "nope".toList = [] ∧
    expandVal sample5Last sample5Idx (JSVal.num 7) = JSVal.num 7 := by
  have h := claim5_expansion sample5Last sample5Idx
  refine ⟨?_, ?_, ?_, ?_⟩
  · rw [h.1 "x=".toList "last.stdout".toList "y".toList (by decide) (by decide) (by decide)]
    decide
  · rw [h.2.2.2.1 "t1".toList RField.code (by decide) (by decide)]
    decide
  · refine h.2.2.2.2.2.1 "nope".toList (by decide) ?_
    intro t f hcon
    have hlen : ("nope".toList : List Char).length =
        ("runs.".toList ++ t ++ '.' :: fieldChars f).length := by rw [hcon]
    cases f <;> simp [fieldChars, List.length_append] at hlen
  · exact h.2.2.2.2.2.2 (JSVal.num 7) rfl
